import Mathlib

/-!
Shallow embedding of `streamlit_lessdata_morefilter_w2_wage_change_tracker_20241124_v14.py`.

The program is a linear pandas/streamlit pipeline: reconstruct spreadsheet
headers from four stacked header rows, project a fixed column set, drop the
trailing 4 summary rows, parse `Period End Date` (dropping unparseable rows),
derive the month bucket `MM/YYYY Pay Only`, keep only `Payroll Type == "Regular"`
records, apply user filters (date range, employee names, four categorical
"All"-sentinel filters), group by month bucket, average the selected target
column, sort by period, label periods as "%b-%Y", and plot with y-limits taken
from the unfiltered Regular-payroll dataset.

Dates are modelled as (year, month, day) triples of naturals ordered
lexicographically; monetary values as rationals; a table as a list of records.
-/

/-- A calendar date `(year, month, day)`, the model of a pandas timestamp's
date part. Ordered lexicographically by `Date.leB`. -/
structure Date where
  year : Nat
  month : Nat
  day : Nat
deriving DecidableEq

/-- Lexicographic `≤` on dates, the order pandas uses to compare timestamps
(and that the `.dt.date >=` / `<=` comparisons in the date-range filter use). -/
def Date.leB (a b : Date) : Bool :=
  decide (a.year < b.year) ||
    (decide (a.year = b.year) &&
      (decide (a.month < b.month) ||
        (decide (a.month = b.month) && decide (a.day ≤ b.day))))

/-- Proposition form of `Date.leB`. -/
def dateLe (a b : Date) : Prop := Date.leB a b = true

theorem Date.leB_iff (a b : Date) :
    Date.leB a b = true ↔
      (a.year < b.year ∨ (a.year = b.year ∧
        (a.month < b.month ∨ (a.month = b.month ∧ a.day ≤ b.day)))) := by
  simp [Date.leB]

instance : DecidableRel dateLe := fun a b => instDecidableEqBool (Date.leB a b) true

theorem dateLe_refl (a : Date) : dateLe a a := by
  simp [dateLe, Date.leB_iff]

instance : IsTrans Date dateLe := by
  refine ⟨fun a b c hab hbc => ?_⟩
  simp only [dateLe, Date.leB_iff] at *
  omega

instance : IsTotal Date dateLe := by
  refine ⟨fun a b => ?_⟩
  simp only [dateLe, Date.leB_iff]
  omega

theorem dateLe_antisymm {a b : Date} (hab : dateLe a b) (hba : dateLe b a) : a = b := by
  simp only [dateLe, Date.leB_iff] at hab hba
  have hy : a.year = b.year := by omega
  have hm : a.month = b.month := by omega
  have hd : a.day = b.day := by omega
  cases a; cases b
  simp_all

/-- The seven monetary columns offered as target variables
(`target_variable_options` in the source). -/
inductive TargetVariable where
  | totalsNetPayPortion
  | grossPayAmount
  | overheadPortion
  | payrollCostAmount
  | returnToClientDedPortion
  | invoiceChargesFeesPortion
  | amountDuePortion
deriving DecidableEq

/-- A raw data row as read from the spreadsheet, restricted to the projected
columns the claims mention.  `periodEndDate` is the result of
`pd.to_datetime(..., errors="coerce")`: `none` models `NaT` (a parse failure). -/
structure RawRecord where
  employeeName : String
  jobTitle : String
  jobFunction : String
  jobCategory : String
  insperityClientName : String
  payrollType : String
  periodEndDate : Option Date
  totalsNetPayPortion : ℚ
  grossPayAmount : ℚ
  overheadPortion : ℚ
  payrollCostAmount : ℚ
  returnToClientDedPortion : ℚ
  invoiceChargesFeesPortion : ℚ
  amountDuePortion : ℚ
deriving DecidableEq

/-- A row of `wage_report_important_columns_df` after date parsing: the parsed
`Period End Date` plus the derived `MM/YYYY Pay Only` month bucket. -/
structure Record where
  employeeName : String
  jobTitle : String
  jobFunction : String
  jobCategory : String
  insperityClientName : String
  payrollType : String
  periodEndDate : Date
  mmYYYYPayOnly : Date
  totalsNetPayPortion : ℚ
  grossPayAmount : ℚ
  overheadPortion : ℚ
  payrollCostAmount : ℚ
  returnToClientDedPortion : ℚ
  invoiceChargesFeesPortion : ℚ
  amountDuePortion : ℚ
deriving DecidableEq

/-- Build a processed record from a raw row whose `Period End Date` parsed to
`d`; `MM/YYYY Pay Only` is `d.dt.to_period("M").dt.to_timestamp()`, i.e. the
first day of the month of `d`. -/
def toRecord (r : RawRecord) (d : Date) : Record :=
  ⟨r.employeeName, r.jobTitle, r.jobFunction, r.jobCategory, r.insperityClientName,
   r.payrollType, d, ⟨d.year, d.month, 1⟩,
   r.totalsNetPayPortion, r.grossPayAmount, r.overheadPortion, r.payrollCostAmount,
   r.returnToClientDedPortion, r.invoiceChargesFeesPortion, r.amountDuePortion⟩

/-- Model of `wage_report_important_columns_df` after `.head(-4)` (drop the trailing 4
summary rows), date parsing with `errors="coerce"`, `dropna` on
`Period End Date`, and derivation of `MM/YYYY Pay Only`. -/
def wage_report_important_columns_df (raws : List RawRecord) : List Record :=
  (raws.take (raws.length - 4)).filterMap (fun r => r.periodEndDate.map (toRecord r))

/-- Model of `wage_report_regular_payroll_df`: only rows with `Payroll Type == "Regular"`. -/
def wage_report_regular_payroll_df (raws : List RawRecord) : List Record :=
  (wage_report_important_columns_df raws).filter (fun r => r.payrollType == "Regular")

/-- The value of the selected target column on a record. -/
def targetValue : TargetVariable → Record → ℚ
  | .totalsNetPayPortion, r => r.totalsNetPayPortion
  | .grossPayAmount, r => r.grossPayAmount
  | .overheadPortion, r => r.overheadPortion
  | .payrollCostAmount, r => r.payrollCostAmount
  | .returnToClientDedPortion, r => r.returnToClientDedPortion
  | .invoiceChargesFeesPortion, r => r.invoiceChargesFeesPortion
  | .amountDuePortion, r => r.amountDuePortion

/-- Model of `wage_report_regular_payroll_df["MM/YYYY Pay Only"].min()`: the earliest
month bucket (slider lower default), `none` on an empty table. -/
def min_date (tbl : List Record) : Option Date :=
  match tbl.map (fun r => r.mmYYYYPayOnly) with
  | [] => none
  | d :: ds => some (ds.foldl (fun a b => if Date.leB b a then b else a) d)

/-- Model of `wage_report_regular_payroll_df["MM/YYYY Pay Only"].max()`: the latest
month bucket (slider upper default), `none` on an empty table. -/
def max_date (tbl : List Record) : Option Date :=
  match tbl.map (fun r => r.mmYYYYPayOnly) with
  | [] => none
  | d :: ds => some (ds.foldl (fun a b => if Date.leB a b then b else a) d)

/-- One assignment of every interactive filter control. -/
structure FilterConfig where
  rangeLo : Date
  rangeHi : Date
  employeeNames : List String
  jobTitle : String
  jobFunction : String
  jobCategory : String
  insperityClientName : String
deriving DecidableEq

/-- The date-range stage of `filtered_df`: keep rows whose month bucket lies
in `[lo, hi]`, both bounds inclusive. -/
def date_filtered_df (tbl : List Record) (lo hi : Date) : List Record :=
  tbl.filter (fun r => Date.leB lo r.mmYYYYPayOnly && Date.leB r.mmYYYYPayOnly hi)

/-- The employee-name stage: `if employee_name_input:` — an empty selection is
falsy, so no filter; otherwise keep rows whose name is in the selection. -/
def name_filtered_df (tbl : List Record) (names : List String) : List Record :=
  if names.isEmpty then tbl else tbl.filter (fun r => names.contains r.employeeName)

/-- Model of `filtered_df`: the full filter chain in source order — date range, employee
names, then the four categorical filters, each skipped at its "All" sentinel. -/
def filtered_df (tbl : List Record) (cfg : FilterConfig) : List Record :=
  let f2 := name_filtered_df (date_filtered_df tbl cfg.rangeLo cfg.rangeHi) cfg.employeeNames
  let f3 := if cfg.jobTitle == "All" then f2 else f2.filter (fun r => r.jobTitle == cfg.jobTitle)
  let f4 := if cfg.jobFunction == "All" then f3 else
    f3.filter (fun r => r.jobFunction == cfg.jobFunction)
  let f5 := if cfg.jobCategory == "All" then f4 else
    f4.filter (fun r => r.jobCategory == cfg.jobCategory)
  if cfg.insperityClientName == "All" then f5 else
    f5.filter (fun r => r.insperityClientName == cfg.insperityClientName)

/-- First-occurrence deduplication with an accumulator of already-seen values:
the model of pandas `Series.unique()` (which keeps first occurrences in order)
and of the distinct group keys of `groupby`. -/
def uniqueAux {α : Type} [DecidableEq α] : List α → List α → List α
  | _, [] => []
  | seen, x :: rest =>
      if x ∈ seen then uniqueAux seen rest else x :: uniqueAux (x :: seen) rest

/-- The distinct values of a list, first occurrences kept, order preserved. -/
def uniqueList {α : Type} [DecidableEq α] (l : List α) : List α := uniqueAux [] l

/-- The distinct month buckets of a table, ascending — the group keys of
`groupby("MM/YYYY Pay Only")`, which sorts keys, composed with the final
(stable, hence no-op) `sort_values(by="Period")`. -/
def monthKeys (rows : List Record) : List Date :=
  List.insertionSort dateLe (uniqueList (rows.map (fun r => r.mmYYYYPayOnly)))

/-- Arithmetic mean of a list of rationals (`Series.mean()`), 0 on `[]`. -/
def meanQ (l : List ℚ) : ℚ := l.sum / (l.length : ℚ)

/-- Model of `average_payroll_cost`: group the filtered rows by month bucket, take the
mean of the selected target column per group, one row per distinct bucket,
ascending by period. -/
def average_payroll_cost (rows : List Record) (t : TargetVariable) : List (Date × ℚ) :=
  (monthKeys rows).map (fun k =>
    (k, meanQ ((rows.filter (fun r => decide (r.mmYYYYPayOnly = k))).map (targetValue t))))

/-- The three-letter English month abbreviation of `strftime("%b-...")`;
months come from parsed dates, so only 1..12 occur. -/
def monthName : Nat → String
  | 1 => "Jan" | 2 => "Feb" | 3 => "Mar" | 4 => "Apr"
  | 5 => "May" | 6 => "Jun" | 7 => "Jul" | 8 => "Aug"
  | 9 => "Sep" | 10 => "Oct" | 11 => "Nov" | 12 => "Dec"
  | _ => ""

/-- The decimal digit character for `n % 10`-style values. -/
def digitChar10 : Nat → Char
  | 0 => '0' | 1 => '1' | 2 => '2' | 3 => '3' | 4 => '4'
  | 5 => '5' | 6 => '6' | 7 => '7' | 8 => '8' | _ => '9'

/-- Fuel-driven most-significant-first decimal rendering of a natural. -/
def natDecAux : Nat → Nat → List Char
  | 0, _ => []
  | fuel + 1, n =>
      if n < 10 then [digitChar10 n]
      else natDecAux fuel (n / 10) ++ [digitChar10 (n % 10)]

/-- The decimal digits of `n`, most significant first: the `%Y` year part of
`strftime` (years of real timestamps are four digits, rendered unpadded). -/
def natDecChars (n : Nat) : List Char := natDecAux (n + 1) n

/-- Model of `strftime("%b-%Y")` on a first-of-month timestamp: e.g. "Jan-2024". -/
def periodLabel (d : Date) : String :=
  ⟨(monthName d.month).data ++ '-' :: natDecChars d.year⟩

/-- Model of `average_payroll_cost` together with its derived "Period Label" column:
the (label, mean) pairs the chart actually plots. -/
def average_payroll_cost_labeled (rows : List Record) (t : TargetVariable) :
    List (String × ℚ) :=
  (average_payroll_cost rows t).map (fun p => (periodLabel p.1, p.2))

/-- Model of `Series.min()` on a rational column: `none` on an empty column. -/
def seriesMinQ : List ℚ → Option ℚ
  | [] => none
  | x :: xs => some (xs.foldl min x)

/-- Model of `Series.max()` on a rational column: `none` on an empty column. -/
def seriesMaxQ : List ℚ → Option ℚ
  | [] => none
  | x :: xs => some (xs.foldl max x)

/-- Model of `global_min`: minimum of the selected target column over the whole
(pre-user-filter) Regular-payroll dataset. -/
def global_min (raws : List RawRecord) (t : TargetVariable) : Option ℚ :=
  seriesMinQ ((wage_report_regular_payroll_df raws).map (targetValue t))

/-- Model of `global_max`: maximum of the selected target column over the whole
(pre-user-filter) Regular-payroll dataset. -/
def global_max (raws : List RawRecord) (t : TargetVariable) : Option ℚ :=
  seriesMaxQ ((wage_report_regular_payroll_df raws).map (targetValue t))

/-- Model of `ax.set_ylim(global_min, global_max)`: the y-axis bounds of the rendered
chart.  The filter configuration is in scope in the script but unused here. -/
def chart_y_bounds (raws : List RawRecord) (_cfg : FilterConfig) (t : TargetVariable) :
    Option ℚ × Option ℚ :=
  (global_min raws t, global_max raws t)

/-- The subset the categorical option lists are computed from: `filtered_df`
as of line 106 of the source, i.e. after the date-range and employee-name
stages but before any categorical filter. -/
def pre_categorical_df (tbl : List Record) (lo hi : Date) (names : List String) :
    List Record :=
  name_filtered_df (date_filtered_df tbl lo hi) names

/-- Model of `job_titles = filtered_df["Job Title"].unique()`. -/
def job_titles (tbl : List Record) (lo hi : Date) (names : List String) : List String :=
  uniqueList ((pre_categorical_df tbl lo hi names).map (fun r => r.jobTitle))

/-- Model of `job_functions = filtered_df["Job Function"].unique()`. -/
def job_functions (tbl : List Record) (lo hi : Date) (names : List String) : List String :=
  uniqueList ((pre_categorical_df tbl lo hi names).map (fun r => r.jobFunction))

/-- Model of `job_categories = filtered_df["Job Category"].unique()`. -/
def job_categories (tbl : List Record) (lo hi : Date) (names : List String) : List String :=
  uniqueList ((pre_categorical_df tbl lo hi names).map (fun r => r.jobCategory))

/-- Model of `insperity_client_name = filtered_df["Insperity Client Name"].unique()`. -/
def insperity_client_name (tbl : List Record) (lo hi : Date) (names : List String) :
    List String :=
  uniqueList ((pre_categorical_df tbl lo hi names).map (fun r => r.insperityClientName))

/-- The job-title selectbox options: `["All"] + list(job_titles)`. -/
def jobTitleOptions (tbl : List Record) (lo hi : Date) (names : List String) : List String :=
  "All" :: job_titles tbl lo hi names

/-- The job-function selectbox options: `["All"] + list(job_functions)`. -/
def jobFunctionOptions (tbl : List Record) (lo hi : Date) (names : List String) :
    List String :=
  "All" :: job_functions tbl lo hi names

/-- The job-category selectbox options: `["All"] + list(job_categories)`. -/
def jobCategoryOptions (tbl : List Record) (lo hi : Date) (names : List String) :
    List String :=
  "All" :: job_categories tbl lo hi names

/-- The Insperity-client-name selectbox options: `["All"] + list(insperity_client_name)`. -/
def insperityClientNameOptions (tbl : List Record) (lo hi : Date) (names : List String) :
    List String :=
  "All" :: insperity_client_name tbl lo hi names

/-- The six filter stages of `filtered_df` as one boolean predicate each; a
stage whose control is at its default (empty name list, "All" sentinel) is the
constantly-true predicate, reflecting that the source skips it. -/
def filterPreds (cfg : FilterConfig) : List (Record → Bool) :=
  [fun r => Date.leB cfg.rangeLo r.mmYYYYPayOnly && Date.leB r.mmYYYYPayOnly cfg.rangeHi,
   fun r => cfg.employeeNames.isEmpty || cfg.employeeNames.contains r.employeeName,
   fun r => (cfg.jobTitle == "All") || (r.jobTitle == cfg.jobTitle),
   fun r => (cfg.jobFunction == "All") || (r.jobFunction == cfg.jobFunction),
   fun r => (cfg.jobCategory == "All") || (r.jobCategory == cfg.jobCategory),
   fun r => (cfg.insperityClientName == "All") || (r.insperityClientName == cfg.insperityClientName)]

/-- Apply a list of row predicates as successive dataframe filters. -/
def applyFilters (ps : List (Record → Bool)) (tbl : List Record) : List Record :=
  ps.foldl (fun l p => l.filter p) tbl

/-- Pipeline for "skipping the categorical filters entirely": the pipeline the spec compares
against in the "All"-sentinel claim — only the date-range and employee-name
stages. -/
def filtered_df_no_categorical (tbl : List Record) (lo hi : Date) (names : List String) :
    List Record :=
  name_filtered_df (date_filtered_df tbl lo hi) names

/-- The whitespace characters of the Python regex class `\s` (ASCII part). -/
def wsChars : List Char := [' ', '\t', '\n', '\r', '\x0b', '\x0c']

/-- Is `c` a whitespace character (Python `\s` / `str.strip` default set)? -/
def isWs (c : Char) : Bool := wsChars.contains c

/-- Remove trailing whitespace, the right half of Python `str.strip()`. -/
def dropTrailingWs : List Char → List Char
  | [] => []
  | c :: rest =>
      match dropTrailingWs rest with
      | [] => if isWs c then [] else [c]
      | x :: xs => c :: x :: xs

/-- Python `str.strip()`: drop leading and trailing whitespace. -/
def stripChars (l : List Char) : List Char := dropTrailingWs (l.dropWhile isWs)

/-- One pass of `re.sub(r'\s+', ' ', ·)`: every maximal whitespace run becomes
a single space; `prevWs` records whether the previous character was part of a
run already emitted as a space. -/
def collapseWsAux : List Char → Bool → List Char
  | [], _ => []
  | c :: rest, prevWs =>
      if isWs c then
        if prevWs then collapseWsAux rest true
        else ' ' :: collapseWsAux rest true
      else c :: collapseWsAux rest false

/-- Model of `combined_header` for one column: the four header-row cells joined with
`' '.join`, a missing (NaN) cell having been `fillna(' ')`-ed to a space. -/
def combined_header (c0 c1 c2 c3 : Option String) : String :=
  String.intercalate " " [c0.getD " ", c1.getD " ", c2.getD " ", c3.getD " "]

/-- Model of `cleaned_header` for one column:
`combined_header.str.strip().str.replace(r'\s+', ' ', regex=True)`. -/
def cleaned_header (c0 c1 c2 c3 : Option String) : String :=
  ⟨collapseWsAux (stripChars (combined_header c0 c1 c2 c3).data) false⟩

/-- No two consecutive space characters occur. -/
def noDoubleSpace : List Char → Bool
  | a :: b :: rest => !(a == ' ' && b == ' ') && noDoubleSpace (b :: rest)
  | _ => true

/-- No two consecutive whitespace characters occur (stronger than
`noDoubleSpace` since a space is whitespace). -/
def noAdjWs : List Char → Bool
  | a :: b :: rest => !(isWs a && isWs b) && noAdjWs (b :: rest)
  | _ => true

/-- A trailer/summary row of the spreadsheet: no payroll type, no parseable
`Period End Date`; four of these end every export and are dropped by
`.head(-4)`. -/
def trailerRaw : RawRecord :=
  ⟨"", "", "", "", "", "", none, 0, 0, 0, 0, 0, 0, 0⟩

/-- A small concrete spreadsheet: two Regular records in January 2024 with
`Payroll Cost Amount` 100 and 200, one in February 2024 with 300, followed by
the four trailer rows. -/
def sampleRaws : List RawRecord :=
  [⟨"Alice", "Nurse", "Care", "Clinical", "Altea", "Regular", some ⟨2024, 1, 15⟩,
    0, 0, 0, 100, 0, 0, 0⟩,
   ⟨"Bob", "Nurse", "Care", "Clinical", "Altea", "Regular", some ⟨2024, 1, 31⟩,
    0, 0, 0, 200, 0, 0, 0⟩,
   ⟨"Cara", "Clerk", "Admin", "Office", "Altea", "Regular", some ⟨2024, 2, 10⟩,
    0, 0, 0, 300, 0, 0, 0⟩,
   trailerRaw, trailerRaw, trailerRaw, trailerRaw]

/-- The processed form of the first sample row. -/
def sampleRec : Record :=
  ⟨"Alice", "Nurse", "Care", "Clinical", "Altea", "Regular", ⟨2024, 1, 15⟩, ⟨2024, 1, 1⟩,
   0, 0, 0, 100, 0, 0, 0⟩

/-- A filter configuration with every control at its default. -/
def sampleCfg : FilterConfig :=
  ⟨⟨2024, 1, 1⟩, ⟨2024, 2, 1⟩, [], "All", "All", "All", "All"⟩

theorem dateLe_trans {a b c : Date} (h1 : dateLe a b) (h2 : dateLe b c) : dateLe a c := by
  simp only [dateLe, Date.leB_iff] at h1 h2 ⊢
  omega

theorem dateLe_total (a b : Date) : dateLe a b ∨ dateLe b a := by
  simp only [dateLe, Date.leB_iff]
  omega

theorem mem_uniqueAux {α : Type} [DecidableEq α] :
    ∀ (l seen : List α) (x : α), x ∈ uniqueAux seen l ↔ x ∈ l ∧ x ∉ seen := by
  intro l
  induction l with
  | nil => intro seen x; simp [uniqueAux]
  | cons a t ih =>
    intro seen x
    simp only [uniqueAux]
    by_cases h : a ∈ seen
    · rw [if_pos h, ih]
      constructor
      · rintro ⟨hx, hs⟩
        exact ⟨List.mem_cons_of_mem _ hx, hs⟩
      · rintro ⟨hx, hs⟩
        rcases List.mem_cons.mp hx with rfl | hx
        · exact absurd h hs
        · exact ⟨hx, hs⟩
    · rw [if_neg h]
      constructor
      · intro hx
        rcases List.mem_cons.mp hx with rfl | hx
        · exact ⟨List.mem_cons_self _ _, h⟩
        · have h2 := (ih _ x).mp hx
          exact ⟨List.mem_cons_of_mem _ h2.1,
            fun hs => h2.2 (List.mem_cons_of_mem _ hs)⟩
      · rintro ⟨hx, hs⟩
        rcases List.mem_cons.mp hx with rfl | hx
        · exact List.mem_cons_self _ _
        · by_cases hxa : x = a
          · subst hxa; exact List.mem_cons_self _ _
          · refine List.mem_cons_of_mem _ ((ih _ x).mpr ⟨hx, ?_⟩)
            simp only [List.mem_cons, not_or]
            exact ⟨hxa, hs⟩

theorem nodup_uniqueAux {α : Type} [DecidableEq α] :
    ∀ (l seen : List α), (uniqueAux seen l).Nodup := by
  intro l
  induction l with
  | nil => intro seen; simp [uniqueAux]
  | cons a t ih =>
    intro seen
    simp only [uniqueAux]
    by_cases h : a ∈ seen
    · rw [if_pos h]; exact ih seen
    · rw [if_neg h]
      rw [List.nodup_cons]
      refine ⟨?_, ih (a :: seen)⟩
      intro hmem
      exact ((mem_uniqueAux t (a :: seen) a).mp hmem).2 (List.mem_cons_self _ _)

theorem mem_uniqueList {α : Type} [DecidableEq α] (l : List α) (x : α) :
    x ∈ uniqueList l ↔ x ∈ l := by
  rw [uniqueList, mem_uniqueAux]
  simp

theorem nodup_uniqueList {α : Type} [DecidableEq α] (l : List α) :
    (uniqueList l).Nodup :=
  nodup_uniqueAux l []

theorem foldl_minDate_spec :
    ∀ (ds : List Date) (d : Date),
      dateLe (List.foldl (fun a b => if Date.leB b a then b else a) d ds) d ∧
      ∀ x ∈ ds, dateLe (List.foldl (fun a b => if Date.leB b a then b else a) d ds) x := by
  intro ds
  induction ds with
  | nil => intro d; exact ⟨dateLe_refl d, by simp⟩
  | cons b t ih =>
    intro d
    simp only [List.foldl_cons]
    by_cases h : Date.leB b d
    · have hb : (if Date.leB b d then b else d) = b := by simp [h]
      rw [hb]
      obtain ⟨h1, h2⟩ := ih b
      refine ⟨dateLe_trans h1 h, ?_⟩
      intro x hx
      rcases List.mem_cons.mp hx with rfl | hx
      · exact h1
      · exact h2 x hx
    · have hd : (if Date.leB b d then b else d) = d := by simp [h]
      rw [hd]
      obtain ⟨h1, h2⟩ := ih d
      have hdb : dateLe d b := by
        rcases dateLe_total b d with hh | hh
        · exact absurd hh h
        · exact hh
      refine ⟨h1, ?_⟩
      intro x hx
      rcases List.mem_cons.mp hx with rfl | hx
      · exact dateLe_trans h1 hdb
      · exact h2 x hx

theorem foldl_maxDate_spec :
    ∀ (ds : List Date) (d : Date),
      dateLe d (List.foldl (fun a b => if Date.leB a b then b else a) d ds) ∧
      ∀ x ∈ ds, dateLe x (List.foldl (fun a b => if Date.leB a b then b else a) d ds) := by
  intro ds
  induction ds with
  | nil => intro d; exact ⟨dateLe_refl d, by simp⟩
  | cons b t ih =>
    intro d
    simp only [List.foldl_cons]
    by_cases h : Date.leB d b
    · have hb : (if Date.leB d b then b else d) = b := by simp [h]
      rw [hb]
      obtain ⟨h1, h2⟩ := ih b
      refine ⟨dateLe_trans h h1, ?_⟩
      intro x hx
      rcases List.mem_cons.mp hx with rfl | hx
      · exact h1
      · exact h2 x hx
    · have hd : (if Date.leB d b then b else d) = d := by simp [h]
      rw [hd]
      obtain ⟨h1, h2⟩ := ih d
      have hbd : dateLe b d := by
        rcases dateLe_total d b with hh | hh
        · exact absurd hh h
        · exact hh
      refine ⟨h1, ?_⟩
      intro x hx
      rcases List.mem_cons.mp hx with rfl | hx
      · exact dateLe_trans hbd h1
      · exact h2 x hx

theorem min_date_le (tbl : List Record) (lo : Date) (h : min_date tbl = some lo) :
    ∀ r ∈ tbl, dateLe lo r.mmYYYYPayOnly := by
  cases tbl with
  | nil => simp [min_date] at h
  | cons r0 rest =>
    simp only [min_date, List.map_cons, Option.some.injEq] at h
    intro r hr
    rcases List.mem_cons.mp hr with rfl | hr
    · exact h ▸ (foldl_minDate_spec _ _).1
    · exact h ▸ (foldl_minDate_spec _ _).2 _ (List.mem_map_of_mem _ hr)

theorem max_date_ge (tbl : List Record) (hi : Date) (h : max_date tbl = some hi) :
    ∀ r ∈ tbl, dateLe r.mmYYYYPayOnly hi := by
  cases tbl with
  | nil => simp [max_date] at h
  | cons r0 rest =>
    simp only [max_date, List.map_cons, Option.some.injEq] at h
    intro r hr
    rcases List.mem_cons.mp hr with rfl | hr
    · exact h ▸ (foldl_maxDate_spec _ _).1
    · exact h ▸ (foldl_maxDate_spec _ _).2 _ (List.mem_map_of_mem _ hr)

theorem name_stage_eq (l : List Record) (names : List String) :
    name_filtered_df l names
      = l.filter (fun r => names.isEmpty || names.contains r.employeeName) := by
  by_cases h : names.isEmpty
  · simp [name_filtered_df, h]
  · simp only [name_filtered_df, if_neg h]
    apply List.filter_congr
    intro r _
    simp [Bool.eq_false_iff.mpr h]

theorem cat_stage_eq (l : List Record) (get : Record → String) (c : String) :
    (if c == "All" then l else l.filter (fun r => get r == c))
      = l.filter (fun r => (c == "All") || (get r == c)) := by
  by_cases h : c == "All"
  · simp [h]
  · simp only [if_neg h]
    apply List.filter_congr
    intro r _
    simp [Bool.eq_false_iff.mpr h]

theorem filtered_df_eq (tbl : List Record) (cfg : FilterConfig) :
    filtered_df tbl cfg = tbl.filter (fun r => (filterPreds cfg).all (fun p => p r)) := by
  simp only [filtered_df]
  rw [name_stage_eq, date_filtered_df]
  rw [cat_stage_eq _ (fun r => r.jobTitle) cfg.jobTitle]
  rw [cat_stage_eq _ (fun r => r.jobFunction) cfg.jobFunction]
  rw [cat_stage_eq _ (fun r => r.jobCategory) cfg.jobCategory]
  rw [cat_stage_eq _ (fun r => r.insperityClientName) cfg.insperityClientName]
  rw [List.filter_filter, List.filter_filter, List.filter_filter, List.filter_filter,
    List.filter_filter]
  apply List.filter_congr
  intro r _
  rw [Bool.eq_iff_iff]
  simp only [filterPreds, List.all_cons, List.all_nil, Bool.and_eq_true, Bool.and_true]
  tauto

theorem applyFilters_eq (ps : List (Record → Bool)) (tbl : List Record) :
    applyFilters ps tbl = tbl.filter (fun r => ps.all (fun p => p r)) := by
  induction ps generalizing tbl with
  | nil => simp [applyFilters]
  | cons p ps ih =>
    simp only [applyFilters, List.foldl_cons] at ih ⊢
    rw [ih (tbl.filter p), List.filter_filter]
    apply List.filter_congr
    intro r _
    rw [List.all_cons]
    exact Bool.and_comm _ _

theorem all_apply_perm (r : Record) {ps qs : List (Record → Bool)} (h : ps.Perm qs) :
    ps.all (fun p => p r) = qs.all (fun p => p r) := by
  rw [Bool.eq_iff_iff, List.all_eq_true, List.all_eq_true]
  constructor
  · intro ha p hp
    exact ha p (h.mem_iff.mpr hp)
  · intro ha p hp
    exact ha p (h.mem_iff.mp hp)

theorem foldl_minQ_spec :
    ∀ (xs : List ℚ) (a : ℚ),
      (xs.foldl min a ≤ a ∧ ∀ x ∈ xs, xs.foldl min a ≤ x) ∧ xs.foldl min a ∈ a :: xs := by
  intro xs
  induction xs with
  | nil => intro a; simp
  | cons b t ih =>
    intro a
    simp only [List.foldl_cons]
    obtain ⟨⟨h1, h2⟩, h3⟩ := ih (min a b)
    refine ⟨⟨le_trans h1 (min_le_left a b), ?_⟩, ?_⟩
    · intro x hx
      rcases List.mem_cons.mp hx with rfl | hx
      · exact le_trans h1 (min_le_right _ _)
      · exact h2 x hx
    · rcases List.mem_cons.mp h3 with hmem | hmem
      · rw [hmem]
        rcases min_choice a b with hc | hc
        · rw [hc]; exact List.mem_cons_self _ _
        · rw [hc]; exact List.mem_cons_of_mem _ (List.mem_cons_self _ _)
      · exact List.mem_cons_of_mem _ (List.mem_cons_of_mem _ hmem)

theorem foldl_maxQ_spec :
    ∀ (xs : List ℚ) (a : ℚ),
      (a ≤ xs.foldl max a ∧ ∀ x ∈ xs, x ≤ xs.foldl max a) ∧ xs.foldl max a ∈ a :: xs := by
  intro xs
  induction xs with
  | nil => intro a; simp
  | cons b t ih =>
    intro a
    simp only [List.foldl_cons]
    obtain ⟨⟨h1, h2⟩, h3⟩ := ih (max a b)
    refine ⟨⟨le_trans (le_max_left a b) h1, ?_⟩, ?_⟩
    · intro x hx
      rcases List.mem_cons.mp hx with rfl | hx
      · exact le_trans (le_max_right _ _) h1
      · exact h2 x hx
    · rcases List.mem_cons.mp h3 with hmem | hmem
      · rw [hmem]
        rcases max_choice a b with hc | hc
        · rw [hc]; exact List.mem_cons_self _ _
        · rw [hc]; exact List.mem_cons_of_mem _ (List.mem_cons_self _ _)
      · exact List.mem_cons_of_mem _ (List.mem_cons_of_mem _ hmem)

theorem length_filterMap_parse :
    ∀ (l : List RawRecord),
      (l.filterMap (fun r => r.periodEndDate.map (toRecord r))).length
        = (l.filter (fun r => r.periodEndDate.isSome)).length := by
  intro l
  induction l with
  | nil => simp
  | cons a t ih =>
    cases h : a.periodEndDate with
    | none => simp [List.filterMap_cons, List.filter_cons, h, ih]
    | some d => simp [List.filterMap_cons, List.filter_cons, h, ih]

/-- The month bucket shape guaranteed by date parsing: a real month number and
the first day of the month. -/
def ValidBucket (d : Date) : Prop := 1 ≤ d.month ∧ d.month ≤ 12 ∧ d.day = 1

instance (d : Date) : Decidable (ValidBucket d) := by
  unfold ValidBucket
  infer_instance

theorem monthName_length (m : Nat) (h1 : 1 ≤ m) (h2 : m ≤ 12) :
    (monthName m).data.length = 3 := by
  interval_cases m <;> rfl

theorem monthName_inj (m1 m2 : Nat) (h11 : 1 ≤ m1) (h12 : m1 ≤ 12)
    (h21 : 1 ≤ m2) (h22 : m2 ≤ 12) (h : monthName m1 = monthName m2) : m1 = m2 := by
  interval_cases m1 <;> interval_cases m2 <;> revert h <;> decide

/-- The numeric value read back from a most-significant-first digit string. -/
def valChars (l : List Char) : Nat := l.foldl (fun a c => 10 * a + (c.toNat - 48)) 0

theorem digitVal_digitChar10 : ∀ n < 10, (digitChar10 n).toNat - 48 = n := by decide

theorem valChars_append_digit (l : List Char) (c : Char) :
    valChars (l ++ [c]) = 10 * valChars l + (c.toNat - 48) := by
  simp [valChars, List.foldl_append]

theorem valChars_natDecAux :
    ∀ (fuel n : Nat), n < 10 ^ fuel → valChars (natDecAux fuel n) = n := by
  intro fuel
  induction fuel with
  | zero =>
    intro n h
    have hn : n = 0 := by simpa using h
    subst hn
    rfl
  | succ f ih =>
    intro n h
    by_cases h10 : n < 10
    · have := digitVal_digitChar10 n h10
      simp only [natDecAux, if_pos h10, valChars, List.foldl_cons, List.foldl_nil]
      omega
    · rw [natDecAux, if_neg h10, valChars_append_digit]
      have hdiv : n / 10 < 10 ^ f := by
        rw [Nat.div_lt_iff_lt_mul (by norm_num)]
        calc n < 10 ^ (f + 1) := h
          _ = 10 ^ f * 10 := by ring
      rw [ih _ hdiv]
      have hm : n % 10 < 10 := Nat.mod_lt _ (by norm_num)
      rw [digitVal_digitChar10 (n % 10) hm]
      omega

theorem valChars_natDecChars (n : Nat) : valChars (natDecChars n) = n := by
  apply valChars_natDecAux
  calc n < 10 ^ n := Nat.lt_pow_self (by norm_num) n
    _ ≤ 10 ^ (n + 1) := Nat.pow_le_pow_right (by norm_num) (Nat.le_succ n)

theorem natDecChars_inj {n m : Nat} (h : natDecChars n = natDecChars m) : n = m := by
  have h2 := congrArg valChars h
  rwa [valChars_natDecChars, valChars_natDecChars] at h2

theorem periodLabel_inj {d1 d2 : Date} (h1 : ValidBucket d1) (h2 : ValidBucket d2)
    (h : periodLabel d1 = periodLabel d2) : d1 = d2 := by
  obtain ⟨hm1a, hm1b, hd1⟩ := h1
  obtain ⟨hm2a, hm2b, hd2⟩ := h2
  have hdata : (monthName d1.month).data ++ '-' :: natDecChars d1.year
      = (monthName d2.month).data ++ '-' :: natDecChars d2.year := by
    simpa [periodLabel] using congrArg String.data h
  have hlen : (monthName d1.month).data.length = (monthName d2.month).data.length := by
    rw [monthName_length _ hm1a hm1b, monthName_length _ hm2a hm2b]
  obtain ⟨hmon, htail⟩ := List.append_inj hdata hlen
  have hmeq := monthName_inj _ _ hm1a hm1b hm2a hm2b (String.ext hmon)
  have hyear : natDecChars d1.year = natDecChars d2.year := by
    injection htail
  have hyeq := natDecChars_inj hyear
  cases d1
  cases d2
  simp_all

theorem map_fst_average (rows : List Record) (t : TargetVariable) :
    (average_payroll_cost rows t).map Prod.fst = monthKeys rows := by
  rw [average_payroll_cost, List.map_map]
  exact List.map_id _

theorem collapseWsAux_spec :
    ∀ (l : List Char) (b : Bool),
      noAdjWs (collapseWsAux l b) = true ∧
      (b = true → ∀ c, (collapseWsAux l b).head? = some c → isWs c = false) := by
  intro l
  induction l with
  | nil => intro b; exact ⟨rfl, by intro _ c hc; simp [collapseWsAux] at hc⟩
  | cons c rest ih =>
    intro b
    by_cases hc : isWs c
    · cases b with
      | true =>
        simp only [collapseWsAux, if_pos hc, if_pos rfl]
        exact ⟨(ih true).1, fun _ => (ih true).2 rfl⟩
      | false =>
        have hout : collapseWsAux (c :: rest) false = ' ' :: collapseWsAux rest true := by
          simp [collapseWsAux, hc]
        rw [hout]
        constructor
        · cases hrec : collapseWsAux rest true with
          | nil => rfl
          | cons d ds =>
            have hd : isWs d = false := (ih true).2 rfl d (by rw [hrec]; rfl)
            have hno := (ih true).1
            rw [hrec] at hno
            simp only [noAdjWs, hd, Bool.and_false, Bool.not_false, Bool.true_and]
            exact hno
        · intro hfalse
          exact absurd hfalse (by simp)
    · have hcf : isWs c = false := by
        exact Bool.eq_false_iff.mpr hc
      have hout : collapseWsAux (c :: rest) b = c :: collapseWsAux rest false := by
        simp [collapseWsAux, hc]
      rw [hout]
      constructor
      · cases hrec : collapseWsAux rest false with
        | nil => rfl
        | cons d ds =>
          have hno := (ih false).1
          rw [hrec] at hno
          simp only [noAdjWs, hcf, Bool.false_and, Bool.not_false, Bool.true_and]
          exact hno
      · intro _ c2 hc2
        have : c = c2 := by simpa using hc2
        rw [← this]
        exact hcf

theorem noDoubleSpace_of_noAdjWs : ∀ l, noAdjWs l = true → noDoubleSpace l = true := by
  intro l
  induction l with
  | nil => intro _; rfl
  | cons a t ih =>
    cases t with
    | nil => intro _; rfl
    | cons b t2 =>
      intro h
      simp only [noAdjWs, Bool.and_eq_true] at h
      simp only [noDoubleSpace, Bool.and_eq_true]
      refine ⟨?_, ih h.2⟩
      cases hab : (a == ' ' && b == ' ') with
      | false => rfl
      | true =>
        exfalso
        simp only [Bool.and_eq_true, beq_iff_eq] at hab
        obtain ⟨rfl, rfl⟩ := hab
        simp [isWs, wsChars] at h

theorem dropWhile_head_not :
    ∀ (l : List Char) (c : Char), (l.dropWhile isWs).head? = some c → isWs c = false := by
  intro l
  induction l with
  | nil => intro c h; simp [List.dropWhile] at h
  | cons a t ih =>
    intro c h
    by_cases ha : isWs a
    · rw [List.dropWhile_cons, if_pos ha] at h
      exact ih c h
    · rw [List.dropWhile_cons, if_neg ha] at h
      have : a = c := by simpa using h
      rw [← this]
      exact Bool.eq_false_iff.mpr ha

theorem dropTrailingWs_head :
    ∀ (l : List Char) (c : Char), (dropTrailingWs l).head? = some c → l.head? = some c := by
  intro l
  induction l with
  | nil => intro c h; simp [dropTrailingWs] at h
  | cons a t _
  =>
    intro c h
    simp only [dropTrailingWs] at h
    cases hdt : dropTrailingWs t with
    | nil =>
      rw [hdt] at h
      by_cases ha : isWs a
      · rw [if_pos ha] at h
        simp at h
      · rw [if_neg ha] at h
        simpa using h
    | cons d ds =>
      rw [hdt] at h
      simpa using h

theorem dropTrailingWs_getLast :
    ∀ (l : List Char) (c : Char), (dropTrailingWs l).getLast? = some c → isWs c = false := by
  intro l
  induction l with
  | nil => intro c h; simp [dropTrailingWs] at h
  | cons a t ih =>
    intro c h
    simp only [dropTrailingWs] at h
    cases hdt : dropTrailingWs t with
    | nil =>
      rw [hdt] at h
      by_cases ha : isWs a
      · rw [if_pos ha] at h
        simp at h
      · rw [if_neg ha] at h
        have : a = c := by simpa using h
        rw [← this]
        exact Bool.eq_false_iff.mpr ha
    | cons d ds =>
      rw [hdt] at h
      rw [List.getLast?_cons_cons] at h
      rw [← hdt] at h
      exact ih c h

theorem collapseWsAux_getLast :
    ∀ (l : List Char) (b : Bool) (c : Char),
      l.getLast? = some c → isWs c = false →
      (collapseWsAux l b).getLast? = some c := by
  intro l
  induction l with
  | nil => intro b c h _; simp at h
  | cons a t ih =>
    intro b c hlast hc
    cases t with
    | nil =>
      have : a = c := by simpa using hlast
      subst this
      simp [collapseWsAux, hc]
    | cons d ds =>
      rw [List.getLast?_cons_cons] at hlast
      by_cases ha : isWs a
      · cases b with
        | true =>
          have hout : collapseWsAux (a :: d :: ds) true = collapseWsAux (d :: ds) true := by
            simp [collapseWsAux, ha]
          rw [hout]
          exact ih true c hlast hc
        | false =>
          have hout : collapseWsAux (a :: d :: ds) false
              = ' ' :: collapseWsAux (d :: ds) true := by
            simp [collapseWsAux, ha]
          rw [hout]
          have hrec := ih true c hlast hc
          cases hxs : collapseWsAux (d :: ds) true with
          | nil => rw [hxs] at hrec; simp at hrec
          | cons y ys =>
            rw [hxs] at hrec
            rw [List.getLast?_cons_cons]
            exact hrec
      · have hout : collapseWsAux (a :: d :: ds) b = a :: collapseWsAux (d :: ds) false := by
          simp [collapseWsAux, ha]
        rw [hout]
        have hrec := ih false c hlast hc
        cases hxs : collapseWsAux (d :: ds) false with
        | nil => rw [hxs] at hrec; simp at hrec
        | cons y ys =>
          rw [hxs] at hrec
          rw [List.getLast?_cons_cons]
          exact hrec

/-- The processed form of the first sample row (equal to `sampleRec`). -/
def recA : Record :=
  ⟨"Alice", "Nurse", "Care", "Clinical", "Altea", "Regular", ⟨2024, 1, 15⟩, ⟨2024, 1, 1⟩,
   0, 0, 0, 100, 0, 0, 0⟩

/-- The processed form of the second sample row. -/
def recB : Record :=
  ⟨"Bob", "Nurse", "Care", "Clinical", "Altea", "Regular", ⟨2024, 1, 31⟩, ⟨2024, 1, 1⟩,
   0, 0, 0, 200, 0, 0, 0⟩

/-- The processed form of the third sample row. -/
def recC : Record :=
  ⟨"Cara", "Clerk", "Admin", "Office", "Altea", "Regular", ⟨2024, 2, 10⟩, ⟨2024, 2, 1⟩,
   0, 0, 0, 300, 0, 0, 0⟩

/-- C1: on an input containing exactly two January-2024 "Regular" records with
target values 100 and 200 and one February-2024 record with value 300 (plus
the four trailer rows every export carries), the pipeline with default filters
(full range, no employee selection, every categorical control at "All") and
the default target column yields exactly
[("Jan-2024", 150), ("Feb-2024", 300)], in that order. -/
theorem claim_C1 :
    min_date (wage_report_regular_payroll_df sampleRaws) = some ⟨2024, 1, 1⟩ ∧
    max_date (wage_report_regular_payroll_df sampleRaws) = some ⟨2024, 2, 1⟩ ∧
    average_payroll_cost_labeled
        (filtered_df (wage_report_regular_payroll_df sampleRaws) sampleCfg)
        TargetVariable.payrollCostAmount
      = [("Jan-2024", 150), ("Feb-2024", 300)] := by
  refine ⟨by decide, by decide, ?_⟩
  have hfilt : filtered_df (wage_report_regular_payroll_df sampleRaws) sampleCfg
      = [recA, recB, recC] := by decide
  have hkeys : monthKeys [recA, recB, recC] = [⟨2024, 1, 1⟩, ⟨2024, 2, 1⟩] := by decide
  rw [hfilt]
  simp only [average_payroll_cost_labeled, average_payroll_cost]
  rw [hkeys]
  simp only [List.map_cons, List.map_nil]
  have e1 : List.map (targetValue TargetVariable.payrollCostAmount)
      (List.filter (fun r => decide (r.mmYYYYPayOnly = (⟨2024, 1, 1⟩ : Date)))
        [recA, recB, recC]) = [100, 200] := by decide
  have e2 : List.map (targetValue TargetVariable.payrollCostAmount)
      (List.filter (fun r => decide (r.mmYYYYPayOnly = (⟨2024, 2, 1⟩ : Date)))
        [recA, recB, recC]) = [300] := by decide
  rw [e1, e2]
  have e3 : periodLabel ⟨2024, 1, 1⟩ = "Jan-2024" := by decide
  have e4 : periodLabel ⟨2024, 2, 1⟩ = "Feb-2024" := by decide
  rw [e3, e4]
  norm_num [meanQ]

/-- The statement of claim C2 for one loaded table. -/
def C2Prop (raws : List RawRecord) : Prop :=
  (∀ lo hi r, r ∈ date_filtered_df (wage_report_regular_payroll_df raws) lo hi →
      dateLe lo r.mmYYYYPayOnly ∧ dateLe r.mmYYYYPayOnly hi) ∧
  (∀ lo hi, min_date (wage_report_regular_payroll_df raws) = some lo →
      max_date (wage_report_regular_payroll_df raws) = some hi →
      date_filtered_df (wage_report_regular_payroll_df raws) lo hi
        = wage_report_regular_payroll_df raws)

/-- C2: every record surviving the date-range filter has its month bucket
inside the inclusive range, and at the default range (observed minimum and
maximum bucket of the Regular-payroll table) the date filter removes nothing. -/
theorem claim_C2 (raws : List RawRecord) : C2Prop raws := by
  constructor
  · intro lo hi r hr
    rw [date_filtered_df, List.mem_filter] at hr
    have h2 := hr.2
    rw [Bool.and_eq_true] at h2
    exact h2
  · intro lo hi hmin hmax
    rw [date_filtered_df, List.filter_eq_self]
    intro r hr
    rw [Bool.and_eq_true]
    exact ⟨min_date_le _ _ hmin r hr, max_date_ge _ _ hmax r hr⟩

theorem claim_C2_witness :
    min_date (wage_report_regular_payroll_df sampleRaws) = some ⟨2024, 1, 1⟩ ∧
    max_date (wage_report_regular_payroll_df sampleRaws) = some ⟨2024, 2, 1⟩ ∧
    date_filtered_df (wage_report_regular_payroll_df sampleRaws) ⟨2024, 1, 1⟩ ⟨2024, 2, 1⟩
      = wage_report_regular_payroll_df sampleRaws :=
  ⟨by decide, by decide,
    (claim_C2 sampleRaws).2 ⟨2024, 1, 1⟩ ⟨2024, 2, 1⟩ (by decide) (by decide)⟩

/-- The statement of claim C3 for one loaded table. -/
def C3Prop (raws : List RawRecord) : Prop :=
  (∀ r ∈ wage_report_regular_payroll_df raws, r.payrollType = "Regular") ∧
  (∀ r ∈ wage_report_important_columns_df raws,
      r.payrollType ≠ "Regular" → r ∉ wage_report_regular_payroll_df raws)

/-- C3: every record entering the filter stage has payroll type exactly
"Regular"; a projected record with any other payroll type is excluded before
any user filter is applied. -/
theorem claim_C3 (raws : List RawRecord) : C3Prop raws := by
  constructor
  · intro r hr
    rw [wage_report_regular_payroll_df, List.mem_filter] at hr
    simpa using hr.2
  · intro r _ hne hmem
    rw [wage_report_regular_payroll_df, List.mem_filter] at hmem
    exact hne (by simpa using hmem.2)

theorem claim_C3_witness :
    sampleRec ∈ wage_report_regular_payroll_df sampleRaws ∧
    sampleRec.payrollType = "Regular" :=
  ⟨by decide, (claim_C3 sampleRaws).1 sampleRec (by decide)⟩

/-- The statement of claim C4 for one loaded table. -/
def C4Prop (raws : List RawRecord) : Prop :=
  ((wage_report_important_columns_df raws).length
      = ((raws.take (raws.length - 4)).filter
          (fun r => r.periodEndDate.isSome)).length) ∧
  (∀ r2 ∈ wage_report_important_columns_df raws,
      r2.mmYYYYPayOnly = ⟨r2.periodEndDate.year, r2.periodEndDate.month, 1⟩) ∧
  (∀ r2 ∈ wage_report_important_columns_df raws,
      ∃ raw ∈ raws.take (raws.length - 4), raw.periodEndDate = some r2.periodEndDate)

/-- C4: a row whose `Period End Date` fails to parse is dropped (the retained
row count equals the count of parseable rows in the considered window), and
every retained record's month bucket is the first day of the month of its
parsed `Period End Date`. -/
theorem claim_C4 (raws : List RawRecord) : C4Prop raws := by
  refine ⟨length_filterMap_parse _, ?_, ?_⟩
  · intro r2 hr
    rw [wage_report_important_columns_df, List.mem_filterMap] at hr
    obtain ⟨raw, _, heq⟩ := hr
    cases hd : raw.periodEndDate with
    | none => rw [hd] at heq; simp at heq
    | some d =>
      rw [hd] at heq
      simp only [Option.map_some'] at heq
      rw [Option.some.injEq] at heq
      rw [← heq]
      rfl
  · intro r2 hr
    rw [wage_report_important_columns_df, List.mem_filterMap] at hr
    obtain ⟨raw, hmem, heq⟩ := hr
    cases hd : raw.periodEndDate with
    | none => rw [hd] at heq; simp at heq
    | some d =>
      rw [hd] at heq
      simp only [Option.map_some'] at heq
      rw [Option.some.injEq] at heq
      refine ⟨raw, hmem, ?_⟩
      rw [hd, ← heq]
      rfl

theorem claim_C4_witness :
    sampleRec ∈ wage_report_important_columns_df sampleRaws ∧
    sampleRec.mmYYYYPayOnly
      = ⟨sampleRec.periodEndDate.year, sampleRec.periodEndDate.month, 1⟩ :=
  ⟨by decide, (claim_C4 sampleRaws).2.1 sampleRec (by decide)⟩

/-- The statement of claim C5 for one filtered subset and target column. -/
def C5Prop (rows : List Record) (t : TargetVariable) : Prop :=
  ((average_payroll_cost rows t).map Prod.fst).Nodup ∧
  (∀ d, d ∈ (average_payroll_cost rows t).map Prod.fst ↔
      d ∈ rows.map (fun r => r.mmYYYYPayOnly)) ∧
  (rows = [] → average_payroll_cost rows t = []) ∧
  (∀ p ∈ average_payroll_cost rows t,
      p.2 = meanQ ((rows.filter
        (fun r => decide (r.mmYYYYPayOnly = p.1))).map (targetValue t))) ∧
  List.Sorted dateLe ((average_payroll_cost rows t).map Prod.fst) ∧
  ((average_payroll_cost rows t).map (fun p => periodLabel p.1)).Nodup

/-- C5: the aggregation has exactly one row per distinct month bucket present
in the subset (absent months yield no row; an empty subset yields an empty
series), each row's value is the mean of the target column over that month's
records, the rows are sorted by period, and period labels are pairwise
distinct. -/
theorem claim_C5 (rows : List Record) (t : TargetVariable)
    (hval : ∀ r ∈ rows, ValidBucket r.mmYYYYPayOnly) : C5Prop rows t := by
  have hkeys := map_fst_average rows t
  have hnodup : (monthKeys rows).Nodup := by
    have hperm := List.perm_insertionSort dateLe (uniqueList (rows.map (fun r => r.mmYYYYPayOnly)))
    exact hperm.nodup_iff.mpr (nodup_uniqueList _)
  have hmem : ∀ d, d ∈ monthKeys rows ↔ d ∈ rows.map (fun r => r.mmYYYYPayOnly) := by
    intro d
    rw [monthKeys, List.mem_insertionSort, mem_uniqueList]
  refine ⟨?_, ?_, ?_, ?_, ?_, ?_⟩
  · rw [hkeys]; exact hnodup
  · intro d; rw [hkeys]; exact hmem d
  · intro h; subst h; rfl
  · intro p hp
    rw [average_payroll_cost] at hp
    obtain ⟨k, _, rfl⟩ := List.mem_map.mp hp
    rfl
  · rw [hkeys, monthKeys]
    exact List.sorted_insertionSort dateLe _
  · have hmap : (average_payroll_cost rows t).map (fun p => periodLabel p.1)
        = (monthKeys rows).map periodLabel := by
      rw [← hkeys, List.map_map]
      rfl
    rw [hmap]
    refine List.Nodup.map_on ?_ hnodup
    intro x hx y hy hxy
    have hxv : ValidBucket x := by
      obtain ⟨r, hr, hrx⟩ := List.mem_map.mp ((hmem x).mp hx)
      rw [← hrx]
      exact hval r hr
    have hyv : ValidBucket y := by
      obtain ⟨r, hr, hry⟩ := List.mem_map.mp ((hmem y).mp hy)
      rw [← hry]
      exact hval r hr
    exact periodLabel_inj hxv hyv hxy

theorem claim_C5_witness :
    (∀ r ∈ [recA, recB, recC], ValidBucket r.mmYYYYPayOnly) ∧
    C5Prop [recA, recB, recC] TargetVariable.payrollCostAmount :=
  ⟨by decide, claim_C5 [recA, recB, recC] TargetVariable.payrollCostAmount (by decide)⟩

/-- C6: with every categorical control at "All", `filtered_df` — and hence the
aggregation — coincides with the pipeline that skips the four categorical
filters entirely. -/
theorem claim_C6 (tbl : List Record) (lo hi : Date) (names : List String)
    (t : TargetVariable) :
    average_payroll_cost (filtered_df tbl ⟨lo, hi, names, "All", "All", "All", "All"⟩) t
      = average_payroll_cost (filtered_df_no_categorical tbl lo hi names) t := by
  have h : filtered_df tbl ⟨lo, hi, names, "All", "All", "All", "All"⟩
      = filtered_df_no_categorical tbl lo hi names := by
    simp [filtered_df, filtered_df_no_categorical]
  rw [h]

/-- The statement of claim C7 for one table, control assignment and
application order. -/
def C7Prop (raws : List RawRecord) (cfg : FilterConfig)
    (ps : List (Record → Bool)) : Prop :=
  filtered_df (wage_report_regular_payroll_df raws) cfg
      = (wage_report_regular_payroll_df raws).filter
          (fun r => (filterPreds cfg).all (fun p => p r)) ∧
  applyFilters ps (wage_report_regular_payroll_df raws)
      = filtered_df (wage_report_regular_payroll_df raws) cfg ∧
  (∀ r, r ∈ filtered_df (wage_report_regular_payroll_df raws) cfg ↔
      r ∈ wage_report_regular_payroll_df raws ∧ ∀ p ∈ filterPreds cfg, p r = true)

/-- C7: the final filtered subset is exactly the Regular-payroll records
satisfying the conjunction of all (active) filter predicates, and applying the
individual filters in any order yields the same subset. -/
theorem claim_C7 (raws : List RawRecord) (cfg : FilterConfig)
    (ps : List (Record → Bool)) (hperm : ps.Perm (filterPreds cfg)) :
    C7Prop raws cfg ps := by
  refine ⟨filtered_df_eq _ _, ?_, ?_⟩
  · rw [applyFilters_eq, filtered_df_eq]
    apply List.filter_congr
    intro r _
    exact all_apply_perm r hperm
  · intro r
    rw [filtered_df_eq, List.mem_filter]
    simp [List.all_eq_true]

theorem claim_C7_witness : C7Prop sampleRaws sampleCfg (filterPreds sampleCfg) :=
  claim_C7 sampleRaws sampleCfg (filterPreds sampleCfg) (List.Perm.refl _)

/-- The statement of claim C8 for one column's four header cells. -/
def C8Prop (c0 c1 c2 c3 : Option String) : Prop :=
  noDoubleSpace (cleaned_header c0 c1 c2 c3).data = true ∧
  (∀ c, (cleaned_header c0 c1 c2 c3).data.head? = some c → isWs c = false) ∧
  (∀ c, (cleaned_header c0 c1 c2 c3).data.getLast? = some c → isWs c = false)

/-- C8: every reconstructed header label contains no two consecutive space
characters and has no leading or trailing whitespace. -/
theorem claim_C8 (c0 c1 c2 c3 : Option String) : C8Prop c0 c1 c2 c3 := by
  refine ⟨?_, ?_, ?_⟩
  · exact noDoubleSpace_of_noAdjWs _ (collapseWsAux_spec _ false).1
  · intro c hc
    have hc2 : (collapseWsAux (stripChars (combined_header c0 c1 c2 c3).data) false).head?
        = some c := hc
    cases hs : stripChars (combined_header c0 c1 c2 c3).data with
    | nil => rw [hs] at hc2; simp [collapseWsAux] at hc2
    | cons a t =>
      have ha : isWs a = false := by
        have h1 : (stripChars (combined_header c0 c1 c2 c3).data).head? = some a := by
          rw [hs]; rfl
        have h2 := dropTrailingWs_head _ _ h1
        exact dropWhile_head_not _ _ h2
      rw [hs] at hc2
      have hout : collapseWsAux (a :: t) false = a :: collapseWsAux t false := by
        simp [collapseWsAux, ha]
      rw [hout] at hc2
      have : a = c := by simpa using hc2
      rw [← this]
      exact ha
  · intro c hc
    have hc2 : (collapseWsAux (stripChars (combined_header c0 c1 c2 c3).data) false).getLast?
        = some c := hc
    cases hs : stripChars (combined_header c0 c1 c2 c3).data with
    | nil => rw [hs] at hc2; simp [collapseWsAux] at hc2
    | cons a t =>
      cases hdl : (a :: t).getLast? with
      | none => simp at hdl
      | some d =>
        have hdws : isWs d = false := by
          apply dropTrailingWs_getLast ((combined_header c0 c1 c2 c3).data.dropWhile isWs) d
          rw [← hs] at hdl
          exact hdl
        have hlast := collapseWsAux_getLast (a :: t) false d hdl hdws
        rw [hs] at hc2
        rw [hc2] at hlast
        have hdc : c = d := by simpa using hlast
        rw [hdc]
        exact hdws

theorem claim_C8_witness :
    C8Prop (some "Gross  Pay") (some " Amount ") none (some "  ") :=
  claim_C8 (some "Gross  Pay") (some " Amount ") none (some "  ")

/-- The statement of claim C9 for one table, two filter configurations and a
target column. -/
def C9Prop (raws : List RawRecord) (cfg cfg2 : FilterConfig) (t : TargetVariable) : Prop :=
  chart_y_bounds raws cfg t = chart_y_bounds raws cfg2 t ∧
  (∀ q, (chart_y_bounds raws cfg t).1 = some q →
      q ∈ (wage_report_regular_payroll_df raws).map (targetValue t) ∧
      ∀ v ∈ (wage_report_regular_payroll_df raws).map (targetValue t), q ≤ v) ∧
  (∀ q, (chart_y_bounds raws cfg t).2 = some q →
      q ∈ (wage_report_regular_payroll_df raws).map (targetValue t) ∧
      ∀ v ∈ (wage_report_regular_payroll_df raws).map (targetValue t), v ≤ q)

/-- C9: the chart's y-axis bounds are the minimum and maximum of the target
column over the unfiltered Regular-payroll dataset, and are therefore
identical across any two filter selections on the same table and target. -/
theorem claim_C9 (raws : List RawRecord) (cfg cfg2 : FilterConfig)
    (t : TargetVariable) : C9Prop raws cfg cfg2 t := by
  refine ⟨rfl, ?_, ?_⟩
  · intro q hq
    simp only [chart_y_bounds, global_min] at hq
    cases hvals : (wage_report_regular_payroll_df raws).map (targetValue t) with
    | nil => rw [hvals] at hq; simp [seriesMinQ] at hq
    | cons x xs =>
      rw [hvals] at hq
      simp only [seriesMinQ, Option.some.injEq] at hq
      obtain ⟨⟨h1, h2⟩, h3⟩ := foldl_minQ_spec xs x
      subst hq
      refine ⟨h3, ?_⟩
      intro v hv
      rcases List.mem_cons.mp hv with rfl | hv
      · exact h1
      · exact h2 v hv
  · intro q hq
    simp only [chart_y_bounds, global_max] at hq
    cases hvals : (wage_report_regular_payroll_df raws).map (targetValue t) with
    | nil => rw [hvals] at hq; simp [seriesMaxQ] at hq
    | cons x xs =>
      rw [hvals] at hq
      simp only [seriesMaxQ, Option.some.injEq] at hq
      obtain ⟨⟨h1, h2⟩, h3⟩ := foldl_maxQ_spec xs x
      subst hq
      refine ⟨h3, ?_⟩
      intro v hv
      rcases List.mem_cons.mp hv with rfl | hv
      · exact h1
      · exact h2 v hv

theorem claim_C9_witness :
    C9Prop sampleRaws sampleCfg
      ⟨⟨2024, 1, 1⟩, ⟨2024, 1, 1⟩, ["Alice"], "Nurse", "Care", "Clinical", "Altea"⟩
      TargetVariable.payrollCostAmount :=
  claim_C9 sampleRaws sampleCfg
    ⟨⟨2024, 1, 1⟩, ⟨2024, 1, 1⟩, ["Alice"], "Nurse", "Care", "Clinical", "Altea"⟩
    TargetVariable.payrollCostAmount

/-- The statement of claim C10 for one table, date range and name selection. -/
def C10Prop (tbl : List Record) (lo hi : Date) (names : List String) : Prop :=
  ((jobTitleOptions tbl lo hi names).head? = some "All" ∧
    ∀ s, s ∈ jobTitleOptions tbl lo hi names ↔
      s = "All" ∨ ∃ r ∈ pre_categorical_df tbl lo hi names, r.jobTitle = s) ∧
  ((jobFunctionOptions tbl lo hi names).head? = some "All" ∧
    ∀ s, s ∈ jobFunctionOptions tbl lo hi names ↔
      s = "All" ∨ ∃ r ∈ pre_categorical_df tbl lo hi names, r.jobFunction = s) ∧
  ((jobCategoryOptions tbl lo hi names).head? = some "All" ∧
    ∀ s, s ∈ jobCategoryOptions tbl lo hi names ↔
      s = "All" ∨ ∃ r ∈ pre_categorical_df tbl lo hi names, r.jobCategory = s) ∧
  ((insperityClientNameOptions tbl lo hi names).head? = some "All" ∧
    ∀ s, s ∈ insperityClientNameOptions tbl lo hi names ↔
      s = "All" ∨ ∃ r ∈ pre_categorical_df tbl lo hi names, r.insperityClientName = s)

/-- C10: each categorical control offers "All" first, followed by exactly the
distinct values occurring in the subset left after the date-range and
employee-name filters — so the offered options vary with those two selections
and only "All" is always present. -/
theorem claim_C10 (tbl : List Record) (lo hi : Date) (names : List String) :
    C10Prop tbl lo hi names := by
  refine ⟨⟨rfl, ?_⟩, ⟨rfl, ?_⟩, ⟨rfl, ?_⟩, ⟨rfl, ?_⟩⟩ <;>
    intro s
  · rw [jobTitleOptions, List.mem_cons, job_titles, mem_uniqueList, List.mem_map]
  · rw [jobFunctionOptions, List.mem_cons, job_functions, mem_uniqueList, List.mem_map]
  · rw [jobCategoryOptions, List.mem_cons, job_categories, mem_uniqueList, List.mem_map]
  · rw [insperityClientNameOptions, List.mem_cons, insperity_client_name, mem_uniqueList,
      List.mem_map]

theorem claim_C10_witness :
    C10Prop (wage_report_regular_payroll_df sampleRaws) ⟨2024, 1, 1⟩ ⟨2024, 2, 1⟩ [] :=
  claim_C10 (wage_report_regular_payroll_df sampleRaws) ⟨2024, 1, 1⟩ ⟨2024, 2, 1⟩ []
